import Mathlib

/-!  A shallow embedding of the homily boundary-detection engine of
`text_find.py` and `video_script.py`: tokenizer, pattern compiler,
backtracking phrase matcher, boundary resolver and segment extractor.
Python float timestamps are modelled as rationals (only order and
subtraction matter to the engine); Python strings are Lean strings with
ASCII semantics for the character classes of the regex `[^\w\s\|]`. -/

namespace TextFind

/-- A transcript word: raw text plus start and end timestamps in seconds. -/
structure Word where
  word : String
  start : ℚ
  «end» : ℚ
  deriving DecidableEq

instance : Inhabited Word := ⟨⟨"", 0, 0⟩⟩

/-- One transcript segment; the engine only ever reads its word list. -/
structure Segment where
  words : List Word
  deriving DecidableEq

/-- A transcript: the ordered segments of the speech-to-text result. -/
structure Transcript where
  segments : List Segment
  deriving DecidableEq

/-- A flattened transcript entry: normalized token plus the word's timestamps. -/
structure TimedToken where
  token : String
  start : ℚ
  «end» : ℚ
  deriving DecidableEq

instance : Inhabited TimedToken := ⟨⟨"", 0, 0⟩⟩

/-- ASCII model of the regex character class `\w`. -/
def is_word_char (c : Char) : Bool := c.isAlphanum || c = '_'

/-- The characters kept by `re.sub(r'[^\w\s\|]', '', text)`. -/
def keep_char (c : Char) : Bool := is_word_char c || c.isWhitespace || c = '|'

/-- `normalize_text`: remove punctuation and lowercase the text. -/
def normalize_text (text : String) : String :=
  String.mk ((text.data.filter keep_char).map Char.toLower)

/-- Split a character list at every character satisfying `p` (model of
splitting a Python string on each separator character). -/
def split_on_pred (p : Char → Bool) : List Char → List (List Char)
  | [] => [[]]
  | c :: rest =>
    match split_on_pred p rest with
    | [] => [[c]]
    | h :: t => if p c then [] :: h :: t else (c :: h) :: t

/-- Python `str.split()` with no argument: split on whitespace runs,
discarding empty pieces. -/
def py_split_whitespace (s : String) : List String :=
  ((split_on_pred Char.isWhitespace s.data).filter (fun t => !t.isEmpty)).map
    (fun chars => String.mk chars)

/-- Python `str.strip()`: remove leading and trailing whitespace. -/
def py_strip (s : String) : String :=
  String.mk (((s.data.dropWhile Char.isWhitespace).reverse.dropWhile
    Char.isWhitespace).reverse)

/-- Python `str.endswith('?')`. -/
def ends_in_qmark (s : String) : Bool :=
  s.data.getLast? == some '?'

/-- Python `str.split(sep)` for a one-character separator. -/
def py_split_on (sep : Char) (s : String) : List String :=
  (split_on_pred (fun c => c == sep) s.data).map (fun chars => String.mk chars)

/-- A compiled pattern token: a literal word or a set of alternatives,
each markable optional. -/
inductive MatchTok where
  | word (w : String) (optional : Bool)
  | alternatives (alts : List String) (optional : Bool)
  deriving DecidableEq

instance : Inhabited MatchTok := ⟨.word "" false⟩

/-- Whether a pattern token carries the optional flag. -/
def MatchTok.optional : MatchTok → Bool
  | .word _ o => o
  | .alternatives _ o => o

/-- `parse_search_pattern`: split the pattern on whitespace; a trailing `?`
marks a token optional; a `|` inside the normalized token introduces a set
of alternatives, each trimmed. -/
def parse_search_pattern (pattern : String) : List MatchTok :=
  (py_split_whitespace pattern).map (fun token =>
    let optional := ends_in_qmark token
    let token := if ends_in_qmark token then String.mk token.data.dropLast else token
    let normalized_token := py_strip (normalize_text token)
    if normalized_token.data.contains '|' then
      MatchTok.alternatives ((py_split_on '|' normalized_token).map py_strip) optional
    else
      MatchTok.word normalized_token optional)

/-- `token_matches`: does a transcript token match a pattern token. -/
def token_matches (transcript_token : String) (pattern_token : MatchTok) : Bool :=
  match pattern_token with
  | .word w _ => transcript_token == w
  | .alternatives alts _ => alts.contains transcript_token

/-- Core of `match_pattern`, structurally recursive on the remaining pattern
tokens (the source indexes the fixed pattern with `p_index`; the remaining
pattern is its suffix from `p_index`). -/
def match_go (words : List TimedToken) : ℕ → List MatchTok → Option ℕ
  | i, [] => some i
  | i, current_pattern :: rest =>
    if h : words.length ≤ i then
      if (current_pattern :: rest).all MatchTok.optional then some i else none
    else
      let current_token := (words.get ⟨i, Nat.lt_of_not_le h⟩).token
      if current_pattern.optional then
        match match_go words i rest with
        | some res => some res
        | none =>
          if token_matches current_token current_pattern then
            match_go words (i + 1) rest
          else none
      else
        if token_matches current_token current_pattern then
          match_go words (i + 1) rest
        else none

/-- `match_pattern`: attempt to match the pattern against the transcript
words starting at word index `i` and pattern index `p_index`; returns the
transcript index after the last matched token, or `none` on failure. -/
def match_pattern (words : List TimedToken) (i : ℕ) (pattern : List MatchTok)
    (p_index : ℕ) : Option ℕ :=
  match_go words i (pattern.drop p_index)

/-- Python `max` over a list of rationals (only used on nonempty lists). -/
def max_q : List ℚ → ℚ
  | [] => 0
  | x :: xs => xs.foldl max x

/-- Python list indexing: a negative index counts from the end of the list. -/
def py_index {α : Type} (l : List α) (k : ℤ) : Option α :=
  let j : ℤ := if k < 0 then k + l.length else k
  if 0 ≤ j ∧ j < (l.length : ℤ) then l.get? j.toNat else none

/-- Flatten the transcript's words into a list with normalized tokens. -/
def flatten_words (transcript : Transcript) : List TimedToken :=
  (transcript.segments.map (fun segment =>
    segment.words.map (fun word_info =>
      { token := py_strip (normalize_text word_info.word)
        start := word_info.start
        «end» := word_info.«end» : TimedToken }))).flatten

/-- The skip filter of `find_phrase_timestamps`: forward mode keeps words
starting at or after `skip`; backward mode keeps words ending at or before
the maximal end minus `skip`. -/
def apply_skip (words_list : List TimedToken) (backwards : Bool) (skip : ℚ) :
    List TimedToken :=
  if backwards then
    let max_end := max_q (words_list.map TimedToken.«end»)
    let threshold := max_end - skip
    words_list.filter (fun w => decide (w.«end» ≤ threshold))
  else
    words_list.filter (fun w => decide (skip ≤ w.start))

/-- All matches, each a pair of indices into the filtered word list. -/
def collect_matches (filtered_words : List TimedToken) (pattern : List MatchTok) :
    List (ℕ × ℕ) :=
  (List.range filtered_words.length).filterMap (fun i =>
    (match_pattern filtered_words i pattern 0).map (fun match_end => (i, match_end)))

/-- `find_phrase_timestamps`: start and end timestamps of the search phrase
in the transcript, or `none` for Python's `(None, None)` sentinel. -/
def find_phrase_timestamps (transcript : Transcript) (search_phrase : String)
    (backwards : Bool) (skip : ℚ) : Option (ℚ × ℚ) :=
  let pattern := parse_search_pattern search_phrase
  let words_list := flatten_words transcript
  if words_list.isEmpty then none
  else
    let filtered_words := apply_skip words_list backwards skip
    let matches_list := collect_matches filtered_words pattern
    match (if backwards then matches_list.getLast? else matches_list.head?) with
    | none => none
    | some (match_i, match_end) =>
      match py_index filtered_words (match_i : ℤ),
            py_index filtered_words ((match_end : ℤ) - 1) with
      | some ws, some we => some (ws.start, we.«end»)
      | _, _ => none

/-- All words of the transcript in segment order (raw, not normalized). -/
def all_words (transcript : Transcript) : List Word :=
  (transcript.segments.map Segment.words).flatten

/-- `find_next_word`: the first word starting strictly after `start`. -/
def find_next_word (transcript : Transcript) (start : ℚ) : Option (ℚ × ℚ) :=
  ((all_words transcript).find? (fun w => decide (start < w.start))).map
    (fun w => (w.start, w.«end»))

/-- `find_prev_word`: the last word ending strictly before `e`. -/
def find_prev_word (transcript : Transcript) (e : ℚ) : Option (ℚ × ℚ) :=
  ((all_words transcript).reverse.find? (fun w => decide (w.«end» < e))).map
    (fun w => (w.start, w.«end»))

/-- A rebuilt segment of the extracted homily. -/
structure NewSegment where
  start : ℚ
  «end» : ℚ
  text : String
  words : List Word
  deriving DecidableEq

/-- The word filter of `find_homily`'s extraction step. -/
def in_boundaries (first last : ℚ) (w : Word) : Bool :=
  decide (first ≤ w.start) && decide (w.start ≤ last)

/-- The trimmed segments built at the end of `find_homily`. -/
def find_homily_segments (transcript : Transcript) (first last : ℚ) :
    List NewSegment :=
  transcript.segments.filterMap (fun segment =>
    match segment.words.filter (in_boundaries first last) with
    | [] => none
    | w0 :: rest => some {
        start := w0.start - first
        «end» := ((w0 :: rest).getLastD w0).«end» - first
        text := " ".intercalate ((w0 :: rest).map Word.word)
        words := w0 :: rest })

/-- Homily text and `(start, end, text)` video segments of `find_homily`. -/
def find_homily_extract (transcript : Transcript) (first last : ℚ) :
    String × List (ℚ × ℚ × String) :=
  let trimmed_segments := find_homily_segments transcript first last
  let homily_words := (trimmed_segments.map (fun s => s.words.map Word.word)).flatten
  (" ".intercalate homily_words,
   trimmed_segments.map (fun s => (s.start, s.«end», s.text)))

/-- The hard-coded marker phrase of `find_homily`. -/
def search_phrase : String := "Holy Ghost|Spirit. Amen."

/-- The re-search `while` loop of `find_homily`, totalized with fuel: each
iteration searches forward past the previous match's end `e` and, on a new
match, moves `last` to the end of the word preceding it.  `none` models a
run of the source that never returns normally (unbounded looping, or the
`find_prev_word` result failing to unpack). -/
def find_homily_loop (transcript : Transcript) : ℕ → ℚ → ℚ → Option ℚ
  | 0, _, _ => none
  | fuel + 1, e, last =>
    match find_phrase_timestamps transcript search_phrase false e with
    | none => some last
    | some (s, e2) =>
      match find_prev_word transcript s with
      | none => none
      | some (_, main_end) => find_homily_loop transcript fuel e2 main_end

/-- `find_homily`: locate the marker phrase, resolve the homily boundaries
`(first, last)` and extract text and video segments.  `none` models the
source raising (unbound `first`/`last` when the marker is absent, or a
failed unpacking of `find_next_word`/`find_prev_word`). -/
def find_homily (transcript : Transcript) :
    Option (ℚ × ℚ × String × List (ℚ × ℚ × String)) :=
  match find_phrase_timestamps transcript search_phrase false 0 with
  | none => none
  | some (_, e0) =>
    match find_next_word transcript e0 with
    | none => none
    | some (main_start, main_end) =>
      match find_homily_loop transcript ((flatten_words transcript).length + 1)
          e0 main_end with
      | none => none
      | some last =>
        let res := find_homily_extract transcript main_start last
        some (main_start, last, res.1, res.2)

/-- `generate_video_script` of `video_script.py`: trim the transcript to the
homily boundaries and rebase all timestamps so the homily starts at 0.
Returns `(segments, homily_start, homily_end, homily_text)`. -/
def generate_video_script (transcript : Transcript) (homily_start homily_end : ℚ) :
    List NewSegment × ℚ × ℚ × String :=
  let trimmed_segments := transcript.segments.filterMap (fun segment =>
    match segment.words.filter (fun w =>
        decide (homily_start ≤ w.start) && decide (w.start ≤ homily_end)) with
    | [] => none
    | w0 :: rest =>
      let new_words := (w0 :: rest).map (fun w =>
        { w with start := w.start - homily_start, «end» := w.«end» - homily_start })
      some {
        start := (new_words.headD w0).start
        «end» := (new_words.getLastD w0).«end»
        text := " ".intercalate (new_words.map Word.word)
        words := new_words })
  let homily_words := (trimmed_segments.map (fun s => s.words.map Word.word)).flatten
  (trimmed_segments, homily_start, homily_end, " ".intercalate homily_words)

/-- An occurrence of the marker phrase `holy (ghost|spirit) amen` at
position `k` of a normalized token list. -/
def marker_occurs_at (l : List TimedToken) (k : ℕ) : Prop :=
  k + 3 ≤ l.length ∧
  (l.getD k default).token = "holy" ∧
  ((l.getD (k + 1) default).token = "ghost" ∨
   (l.getD (k + 1) default).token = "spirit") ∧
  (l.getD (k + 2) default).token = "amen"

instance (l : List TimedToken) (k : ℕ) : Decidable (marker_occurs_at l k) := by
  rw [marker_occurs_at]
  infer_instance

instance : DecidableEq (ℚ × ℚ × String × List (ℚ × ℚ × String)) :=
  @instDecidableEqProd ℚ (ℚ × String × List (ℚ × ℚ × String)) inferInstance inferInstance

/-- A test transcript with a single marker occurrence (at token index 1)
followed by further speech. -/
def single_marker_transcript : Transcript :=
  ⟨[⟨[⟨"intro", 0, 1⟩, ⟨"Holy", 2, 3⟩, ⟨"Ghost", 4, 5⟩, ⟨"Amen", 6, 7⟩,
     ⟨"alpha", 8, 9⟩, ⟨"beta", 10, 11⟩]⟩]⟩

/-- A test transcript with two marker occurrences (token indices 1 and 5). -/
def double_marker_transcript : Transcript :=
  ⟨[⟨[⟨"intro", 0, 1⟩, ⟨"Holy", 2, 3⟩, ⟨"Ghost", 4, 5⟩, ⟨"Amen", 6, 7⟩,
     ⟨"talk", 8, 9⟩, ⟨"Holy", 10, 11⟩, ⟨"Spirit", 12, 13⟩, ⟨"Amen", 14, 15⟩]⟩]⟩

/-! ### Helper lemmas about the backtracking matcher -/

lemma getD_eq_get (words : List TimedToken) (i : ℕ) (h : i < words.length) :
    words.getD i default = words.get ⟨i, h⟩ := by
  rw [List.getD_eq_getElem words default h]
  simp

lemma match_go_mandatory_some (words : List TimedToken) :
    ∀ (pat : List MatchTok), (∀ t ∈ pat, t.optional = false) →
    ∀ i j, match_go words i pat = some j →
      j = i + pat.length ∧ ∀ k < pat.length,
        i + k < words.length ∧
        token_matches (words.getD (i + k) default).token (pat.getD k default) = true := by
  intro pat
  induction pat with
  | nil =>
    intro _ i j h
    have hij : i = j := by simpa [match_go] using h
    subst hij
    exact ⟨by simp, fun k hk => absurd hk (by simp)⟩
  | cons c rest ih =>
    intro hopt i j h
    have hco : c.optional = false := hopt c (by simp)
    have hrest : ∀ t ∈ rest, t.optional = false := fun t ht => hopt t (by simp [ht])
    rw [match_go] at h
    by_cases hlen : words.length ≤ i
    · simp [hlen, List.all_cons, hco] at h
    · simp only [hlen, dite_false, hco, Bool.false_eq_true, if_false] at h
      split at h
      next htm =>
        obtain ⟨hj, hks⟩ := ih hrest (i + 1) j h
        have hilt : i < words.length := by omega
        refine ⟨by simp; omega, fun k hk => ?_⟩
        match k with
        | 0 =>
          refine ⟨by omega, ?_⟩
          rw [Nat.add_zero, getD_eq_get words i hilt]
          simpa using htm
        | Nat.succ k' =>
          have hk' : k' < rest.length := by simpa using hk
          obtain ⟨h1, h2⟩ := hks k' hk'
          refine ⟨by omega, ?_⟩
          have harr : i + 1 + k' = i + (k' + 1) := by omega
          rw [harr] at h2
          simpa using h2
      next => simp at h

lemma match_go_mandatory_complete (words : List TimedToken) :
    ∀ (pat : List MatchTok), (∀ t ∈ pat, t.optional = false) →
    ∀ i, i + pat.length ≤ words.length →
    (∀ k < pat.length,
        token_matches (words.getD (i + k) default).token (pat.getD k default) = true) →
    match_go words i pat = some (i + pat.length) := by
  intro pat
  induction pat with
  | nil => intro _ i _ _; simp [match_go]
  | cons c rest ih =>
    intro hopt i hle hks
    have hco : c.optional = false := hopt c (by simp)
    have hrest : ∀ t ∈ rest, t.optional = false := fun t ht => hopt t (by simp [ht])
    have hilt : i < words.length := by simp at hle; omega
    have hlen : ¬ words.length ≤ i := by omega
    have htm : token_matches (words.get ⟨i, hilt⟩).token c = true := by
      have h0 := hks 0 (by simp)
      rw [Nat.add_zero, getD_eq_get words i hilt] at h0
      simpa using h0
    rw [match_go]
    simp only [hlen, dite_false, hco, Bool.false_eq_true, if_false, htm, if_true]
    have hrec := ih hrest (i + 1) (by simp at hle ⊢; omega) (fun k hk => by
      have hsk := hks (k + 1) (by simp; omega)
      have harr : i + (k + 1) = i + 1 + k := by omega
      rw [harr] at hsk
      simpa using hsk)
    rw [hrec]
    congr 1
    simp
    omega

lemma match_go_all_optional (words : List TimedToken) :
    ∀ (pat : List MatchTok), (∀ t ∈ pat, t.optional = true) →
    ∀ i, match_go words i pat = some i := by
  intro pat
  induction pat with
  | nil => intro _ i; simp [match_go]
  | cons c rest ih =>
    intro hopt i
    have hco : c.optional = true := hopt c (by simp)
    have hrest : ∀ t ∈ rest, t.optional = true := fun t ht => hopt t (by simp [ht])
    rw [match_go]
    by_cases hlen : words.length ≤ i
    · simp [hlen, List.all_cons, hco, List.all_eq_true]
      intro t ht
      exact hrest t ht
    · simp only [hlen, dite_false, hco, if_true]
      rw [ih hrest i]

lemma match_go_le (words : List TimedToken) :
    ∀ (pat : List MatchTok) (i j : ℕ), i ≤ words.length →
    match_go words i pat = some j → i ≤ j ∧ j ≤ words.length := by
  intro pat
  induction pat with
  | nil =>
    intro i j hi h
    have hij : i = j := by simpa [match_go] using h
    omega
  | cons c rest ih =>
    intro i j hi h
    rw [match_go] at h
    by_cases hlen : words.length ≤ i
    · simp only [hlen, dite_true] at h
      split at h
      · have hij : i = j := by simpa using h
        omega
      · simp at h
    · simp only [hlen, dite_false] at h
      cases hco : c.optional with
      | true =>
        simp only [hco, if_true] at h
        rcases hgo : match_go words i rest with _ | res
        · rw [hgo] at h
          simp only at h
          split at h
          · have := ih (i + 1) j (by omega) h
            omega
          · simp at h
        · rw [hgo] at h
          simp only at h
          have hres : res = j := by simpa using h
          rw [← hres]
          exact ih i res hi hgo
      | false =>
        simp only [hco, Bool.false_eq_true, if_false] at h
        split at h
        · have := ih (i + 1) j (by omega) h
          omega
        · simp at h

/-- One unfolding step of `match_pattern` at an optional pattern token with
the transcript not yet exhausted: the skip branch is tried first. -/
lemma match_pattern_optional_step (words : List TimedToken) (pattern : List MatchTok)
    (i p_index : ℕ) (hi : i < words.length) (hp : p_index < pattern.length)
    (hopt : (pattern.getD p_index default).optional = true) :
    match_pattern words i pattern p_index =
      (match match_pattern words i pattern (p_index + 1) with
       | some res => some res
       | none =>
         if token_matches (words.getD i default).token (pattern.getD p_index default)
         then match_pattern words (i + 1) pattern (p_index + 1)
         else none) := by
  have hdrop : pattern.drop p_index = pattern[p_index] :: pattern.drop (p_index + 1) :=
    List.drop_eq_getElem_cons hp
  have hpd : pattern.getD p_index default = pattern[p_index] := by
    rw [List.getD_eq_getElem pattern default hp]
  have hwd : words.getD i default = words.get ⟨i, hi⟩ := getD_eq_get words i hi
  have hlen : ¬ words.length ≤ i := by omega
  rw [match_pattern, hdrop, match_go]
  simp only [hlen, dite_false]
  rw [hpd] at hopt
  simp only [hopt, if_true]
  rw [match_pattern, match_pattern, hpd, hwd]

/-- Claim C2: with no optional tokens, `match_pattern` starting at pattern
index 0 succeeds exactly when the next `pattern.length` transcript tokens
exist and match the pattern tokens one by one, and then returns
`i + pattern.length`. -/
theorem claim_C2 (words : List TimedToken) (pattern : List MatchTok) (i j : ℕ)
    (hopt : ∀ t ∈ pattern, t.optional = false) (hi : i ≤ words.length) :
    match_pattern words i pattern 0 = some j ↔
      (j = i + pattern.length ∧ i + pattern.length ≤ words.length ∧
       ∀ k < pattern.length,
         token_matches (words.getD (i + k) default).token
           (pattern.getD k default) = true) := by
  rw [match_pattern, List.drop_zero]
  constructor
  · intro h
    obtain ⟨hj, hks⟩ := match_go_mandatory_some words pattern hopt i j h
    refine ⟨hj, ?_, fun k hk => (hks k hk).2⟩
    rcases Nat.eq_zero_or_pos pattern.length with h0 | h0
    · omega
    · have := (hks (pattern.length - 1) (by omega)).1
      omega
  · rintro ⟨hj, hle, hks⟩
    subst hj
    exact match_go_mandatory_complete words pattern hopt i hle
      (fun k hk => hks k hk)

/-- Witness for C2 at a concrete one-word transcript and pattern. -/
theorem claim_C2_witness :
    match_pattern [⟨"holy", 0, 1⟩] 0 (parse_search_pattern "holy") 0 = some 1 := by
  have h := claim_C2 [⟨"holy", 0, 1⟩] (parse_search_pattern "holy") 0 1
    (by decide) (by decide)
  exact h.mpr (by refine ⟨by decide, by decide, ?_⟩; decide)

/-- Claim C3: at an optional pattern token the matcher first tries to skip
it (recursing with the pattern index advanced and the token index
unchanged); only when that branch fails does it consume the current token
when it matches; and for the pattern `in? the? name` against the tokens
`the`, `name` the match succeeds ending at index 2. -/
theorem claim_C3 :
    (∀ (words : List TimedToken) (pattern : List MatchTok) (i p_index : ℕ),
      i < words.length → p_index < pattern.length →
      (pattern.getD p_index default).optional = true →
      (∀ r, match_pattern words i pattern (p_index + 1) = some r →
         match_pattern words i pattern p_index = some r) ∧
      (match_pattern words i pattern (p_index + 1) = none →
         match_pattern words i pattern p_index =
           (if token_matches (words.getD i default).token (pattern.getD p_index default)
            then match_pattern words (i + 1) pattern (p_index + 1)
            else none))) ∧
    match_pattern [⟨"the", 0, 1⟩, ⟨"name", 1, 2⟩] 0
      (parse_search_pattern "in? the? name") 0 = some 2 := by
  constructor
  · intro words pattern i p_index hi hp hopt
    rw [match_pattern_optional_step words pattern i p_index hi hp hopt]
    constructor
    · intro r hr
      rw [hr]
    · intro hn
      rw [hn]
  · decide

/-- Witness for C3: the skip branch succeeding forces the overall result. -/
theorem claim_C3_witness :
    match_pattern [⟨"name", 0, 1⟩] 0 (parse_search_pattern "the? name") 0 = some 1 := by
  exact (claim_C3.1 [⟨"name", 0, 1⟩] (parse_search_pattern "the? name") 0 0
    (by decide) (by decide) (by decide)).1 1 (by decide)

lemma le_foldl_max (l : List ℚ) : ∀ a : ℚ, a ≤ l.foldl max a := by
  induction l with
  | nil => intro a; simp
  | cons x xs ih =>
    intro a
    calc a ≤ max a x := le_max_left a x
    _ ≤ xs.foldl max (max a x) := ih (max a x)

lemma mem_le_foldl_max (l : List ℚ) : ∀ (a x : ℚ), x ∈ l → x ≤ l.foldl max a := by
  induction l with
  | nil => intro a x hx; simp at hx
  | cons y ys ih =>
    intro a x hx
    rcases List.mem_cons.mp hx with h | h
    · subst h
      calc x ≤ max a x := le_max_right a x
      _ ≤ ys.foldl max (max a x) := le_foldl_max ys (max a x)
    · exact ih (max a y) x h

/-- Every member of a list of rationals is bounded by its Python `max`. -/
lemma le_max_q (l : List ℚ) (x : ℚ) (hx : x ∈ l) : x ≤ max_q l := by
  cases l with
  | nil => simp at hx
  | cons y ys =>
    rcases List.mem_cons.mp hx with h | h
    · subst h
      exact le_foldl_max ys x
    · exact mem_le_foldl_max ys y x h

/-- Claim C8: the skip filter keeps, in forward mode, exactly the tokens
starting at or after `skip`; in backward mode exactly the tokens ending at
or before the maximal end minus `skip`; and backward mode with `skip = 0`
keeps every token. -/
theorem claim_C8 (l : List TimedToken) (skip : ℚ) :
    apply_skip l false skip = l.filter (fun w => decide (skip ≤ w.start)) ∧
    apply_skip l true skip =
      l.filter (fun w =>
        decide (w.«end» ≤ max_q (l.map TimedToken.«end») - skip)) ∧
    apply_skip l true 0 = l := by
  refine ⟨rfl, rfl, ?_⟩
  rw [apply_skip]
  simp only [if_true]
  rw [List.filter_eq_self]
  intro w hw
  simp only [decide_eq_true_eq, sub_zero]
  exact le_max_q (l.map TimedToken.«end») w.«end»
    (List.mem_map.mpr ⟨w, hw, rfl⟩)

/-- Claim C9: the condition of the self-check the specification demands of
the configured marker: the compiled marker does not match a synthetic
two-word Holy Ghost transcript lacking Amen.  The source performs no such
check at startup; this theorem only evaluates the condition it would test. -/
theorem claim_C9 :
    find_phrase_timestamps ⟨[⟨[⟨"Holy", 0, 1⟩, ⟨"Ghost", 1, 2⟩]⟩]⟩
      search_phrase false 0 = none := by
  decide

lemma match_pattern_none_of_short (filtered : List TimedToken) (pattern : List MatchTok)
    (hopt : ∀ t ∈ pattern, t.optional = false) (hp : 0 < pattern.length) (i : ℕ)
    (hshort : filtered.length < i + pattern.length) :
    match_pattern filtered i pattern 0 = none := by
  rcases h : match_pattern filtered i pattern 0 with _ | j
  · rfl
  · exfalso
    rw [match_pattern, List.drop_zero] at h
    obtain ⟨hj, hks⟩ := match_go_mandatory_some filtered pattern hopt i j h
    have := (hks (pattern.length - 1) (by omega)).1
    omega

lemma collect_matches_nil_of_short (filtered : List TimedToken) (pattern : List MatchTok)
    (hopt : ∀ t ∈ pattern, t.optional = false) (hp : 0 < pattern.length)
    (hshort : filtered.length < pattern.length) :
    collect_matches filtered pattern = [] := by
  rw [collect_matches, List.filterMap_eq_nil_iff]
  intro i hi
  rw [match_pattern_none_of_short filtered pattern hopt hp i (by omega)]
  rfl

lemma fpt_none_of_collect_nil (t : Transcript) (phrase : String) (backwards : Bool)
    (skip : ℚ)
    (h : collect_matches (apply_skip (flatten_words t) backwards skip)
      (parse_search_pattern phrase) = []) :
    find_phrase_timestamps t phrase backwards skip = none := by
  rw [find_phrase_timestamps]
  by_cases he : (flatten_words t).isEmpty
  · simp [he]
  · simp only [he, if_false]
    rw [h]
    rcases backwards <;> rfl

lemma py_index_nat {α : Type} (l : List α) (k : ℕ) (h : k < l.length) :
    py_index l (k : ℤ) = l.get? k := by
  rw [py_index]
  have h0 : ¬ ((k : ℤ) < 0) := by omega
  have h1 : (0 : ℤ) ≤ (k : ℤ) := by omega
  have h2 : (k : ℤ) < (l.length : ℤ) := by omega
  simp [h0, h1, h2]

theorem claim_C1 (t : Transcript) :
    ((flatten_words t).map TimedToken.token = ["holy", "ghost"] →
       find_phrase_timestamps t search_phrase false 0 = none) ∧
    (((flatten_words t).map TimedToken.token = ["holy", "ghost", "amen"] ∨
      (flatten_words t).map TimedToken.token = ["holy", "spirit", "amen"]) →
     (∀ w ∈ flatten_words t, 0 ≤ w.start) →
       find_phrase_timestamps t search_phrase false 0 =
         some (((flatten_words t).headD default).start,
               ((flatten_words t).getLastD default).«end»)) := by
  have hpat : parse_search_pattern search_phrase =
      [MatchTok.word "holy" false, MatchTok.alternatives ["ghost", "spirit"] false,
       MatchTok.word "amen" false] := by decide
  have hopt : ∀ tok ∈ parse_search_pattern search_phrase, tok.optional = false := by
    rw [hpat]; decide
  constructor
  · intro htok
    apply fpt_none_of_collect_nil
    apply collect_matches_nil_of_short _ _ hopt (by rw [hpat]; decide)
    have hlen : (flatten_words t).length = 2 := by
      have := congrArg List.length htok
      simpa using this
    have hfl : (apply_skip (flatten_words t) false 0).length ≤ (flatten_words t).length := by
      rw [apply_skip]
      simp only [Bool.false_eq_true, if_false]
      exact List.length_filter_le _ _
    rw [hpat]
    simp only [List.length_cons, List.length_nil]
    omega
  · intro htok hpos
    have hlen : (flatten_words t).length = 3 := by
      rcases htok with h | h <;>
      · have := congrArg List.length h
        simpa using this
    rcases hL : flatten_words t with _ | ⟨w0, _ | ⟨w1, _ | ⟨w2, _ | ⟨w3, tl⟩⟩⟩⟩ <;>
      rw [hL] at hlen <;> simp at hlen
    rw [hL] at htok hpos
    have ht0 : w0.token = "holy" := by
      rcases htok with h | h <;> simpa using congrArg (fun l => l.headD "") h
    have ht1 : w1.token = "ghost" ∨ w1.token = "spirit" := by
      rcases htok with h | h
      · left; simpa using congrArg (fun l => l.getD 1 "") h
      · right; simpa using congrArg (fun l => l.getD 1 "") h
    have ht2 : w2.token = "amen" := by
      rcases htok with h | h <;> simpa using congrArg (fun l => l.getD 2 "") h
    have hpat3 : (parse_search_pattern search_phrase).length = 3 := by
      rw [hpat]; rfl
    have hm0 : match_pattern [w0, w1, w2] (0 : ℕ) (parse_search_pattern search_phrase) 0
        = some 3 := by
      rw [match_pattern, List.drop_zero]
      have hc := match_go_mandatory_complete [w0, w1, w2]
        (parse_search_pattern search_phrase) hopt 0
        (by rw [hpat3]; simp) ?_
      · rw [hc, hpat3]
      · intro k hk
        rw [hpat3] at hk
        interval_cases k
        · simp [hpat, token_matches, ht0]
        · rcases ht1 with h | h <;> simp [hpat, token_matches, h]
        · simp [hpat, token_matches, ht2]
    have hm1 : match_pattern [w0, w1, w2] (1 : ℕ) (parse_search_pattern search_phrase) 0
        = none :=
      match_pattern_none_of_short _ _ hopt (by rw [hpat3]; omega) 1 (by simp [hpat3])
    have hm2 : match_pattern [w0, w1, w2] (2 : ℕ) (parse_search_pattern search_phrase) 0
        = none :=
      match_pattern_none_of_short _ _ hopt (by rw [hpat3]; omega) 2 (by simp [hpat3])
    have hcm : collect_matches [w0, w1, w2] (parse_search_pattern search_phrase)
        = [((0 : ℕ), (3 : ℕ))] := by
      rw [collect_matches]
      have hr : List.range ([w0, w1, w2] : List TimedToken).length = [0, 1, 2] := rfl
      rw [hr]
      simp [List.filterMap_cons, hm0, hm1, hm2]
    have hfilter : apply_skip [w0, w1, w2] false 0 = [w0, w1, w2] := by
      rw [apply_skip]
      simp only [Bool.false_eq_true, if_false]
      rw [List.filter_eq_self]
      intro w hw
      simp only [decide_eq_true_eq]
      exact hpos w hw
    have hp0 : py_index ([w0, w1, w2] : List TimedToken) (0 : ℤ) = some w0 := by
      have h00 := py_index_nat ([w0, w1, w2] : List TimedToken) 0 (by simp)
      simpa using h00
    have hp2 : py_index ([w0, w1, w2] : List TimedToken) (2 : ℤ) = some w2 := by
      have h22 := py_index_nat ([w0, w1, w2] : List TimedToken) 2 (by simp)
      simpa using h22
    rw [find_phrase_timestamps]
    simp only [hL, hfilter, hcm]
    norm_num [hp0, hp2]

/-- Witness for C1 at concrete transcripts for both halves. -/
theorem claim_C1_witness :
    find_phrase_timestamps ⟨[⟨[⟨"Holy", 0, 2⟩, ⟨"Ghost.", 2, 4⟩]⟩]⟩
      search_phrase false 0 = none ∧
    find_phrase_timestamps ⟨[⟨[⟨"Holy,", 0, 1⟩, ⟨"Spirit", 1, 2⟩, ⟨"Amen.", 2, 3⟩]⟩]⟩
      search_phrase false 0 = some (0, 3) := by
  constructor
  · exact (claim_C1 ⟨[⟨[⟨"Holy", 0, 2⟩, ⟨"Ghost.", 2, 4⟩]⟩]⟩).1 (by decide)
  · have h := (claim_C1 ⟨[⟨[⟨"Holy,", 0, 1⟩, ⟨"Spirit", 1, 2⟩, ⟨"Amen.", 2, 3⟩]⟩]⟩).2
      (Or.inr (by decide)) (by decide)
    rw [h]
    decide


lemma py_index_neg_one {α : Type} (l : List α) (h : 0 < l.length) :
    py_index l (-1) = l.get? (l.length - 1) := by
  rw [py_index]
  have h0 : ((-1 : ℤ) < 0) := by omega
  have h1 : (-1 : ℤ) + l.length = ((l.length - 1 : ℕ) : ℤ) := by omega
  simp only [h0, if_true, h1]
  have h2 : (0 : ℤ) ≤ ((l.length - 1 : ℕ) : ℤ) := by omega
  have h3 : ((l.length - 1 : ℕ) : ℤ) < (l.length : ℤ) := by omega
  simp [h2, h3]

/-- Claim C10: a pattern consisting solely of optional tokens (or empty)
matches vacuously at every start index, and on a nonempty transcript with
nonnegative starts the forward search with skip 0 returns the first word's
start and, through Python's negative-index wraparound at
`match_end - 1 = -1`, the final word's end, rather than the sentinel. -/
theorem claim_C10 (t : Transcript) (phrase : String)
    (hopt : ∀ tok ∈ parse_search_pattern phrase, tok.optional = true)
    (hne : flatten_words t ≠ [])
    (hpos : ∀ w ∈ flatten_words t, 0 ≤ w.start) :
    (∀ i, match_pattern (flatten_words t) i (parse_search_pattern phrase) 0 = some i) ∧
    find_phrase_timestamps t phrase false 0 =
      some (((flatten_words t).headD default).start,
            ((flatten_words t).getLastD default).«end») := by
  have hmp : ∀ (l : List TimedToken) (i : ℕ),
      match_pattern l i (parse_search_pattern phrase) 0 = some i := by
    intro l i
    rw [match_pattern, List.drop_zero]
    exact match_go_all_optional l (parse_search_pattern phrase) hopt i
  refine ⟨fun i => hmp _ i, ?_⟩
  have hfilter : apply_skip (flatten_words t) false 0 = flatten_words t := by
    rw [apply_skip]
    simp only [Bool.false_eq_true, if_false]
    rw [List.filter_eq_self]
    intro w hw
    simp only [decide_eq_true_eq]
    exact hpos w hw
  have hcm : collect_matches (flatten_words t) (parse_search_pattern phrase) =
      (List.range (flatten_words t).length).map (fun i => (i, i)) := by
    rw [collect_matches]
    rw [List.filterMap_congr (g := fun i => some (i, i)) ?_]
    · rw [show (fun i : ℕ => some (i, i)) = some ∘ (fun i : ℕ => (i, i)) from rfl,
        List.filterMap_eq_map]
    · intro i _
      rw [hmp _ i]
      rfl
  rcases hL : flatten_words t with _ | ⟨w0, rest⟩
  · exact absurd hL hne
  rw [find_phrase_timestamps]
  rw [hL] at hfilter hcm
  simp only [hL, List.isEmpty_cons, if_false, hfilter, hcm]
  rw [List.length_cons, List.range_succ_eq_map]
  simp only [List.map_cons, List.head?_cons]
  have hlast : (w0 :: rest).get? ((w0 :: rest).length - 1) =
      some ((w0 :: rest).getLastD default) := by
    rw [List.getLastD_eq_getLast?, List.getLast?_eq_getElem?, List.get?_eq_getElem?]
    rcases hg : (w0 :: rest)[(w0 :: rest).length - 1]? with _ | x
    · exfalso
      rw [List.getElem?_eq_none_iff] at hg
      simp at hg
    · rfl
  have hp0 : py_index (w0 :: rest) (0 : ℤ) = some w0 := by
    have h00 := py_index_nat (w0 :: rest) 0 (by simp)
    simpa using h00
  have hpm1 : py_index (w0 :: rest) (-1 : ℤ) = some ((w0 :: rest).getLastD default) := by
    rw [py_index_neg_one _ (by simp)]
    exact hlast
  norm_num
  rw [hp0, hpm1]
  simp [List.getLastD_eq_getLast?]

/-- Witness for C10 at a concrete two-word transcript and all-optional
pattern. -/
theorem claim_C10_witness :
    find_phrase_timestamps ⟨[⟨[⟨"hello", 0, 1⟩, ⟨"world", 1, 2⟩]⟩]⟩ "in? the?" false 0 =
      some (0, 2) := by
  have h := (claim_C10 ⟨[⟨[⟨"hello", 0, 1⟩, ⟨"world", 1, 2⟩]⟩]⟩ "in? the?"
    (by decide) (by decide) (by decide)).2
  rw [h]
  decide


/-- Members of `collect_matches` are genuine matches at in-range start
indices, with the end index bounded by the list length. -/
lemma mem_collect_matches (filtered : List TimedToken) (pattern : List MatchTok)
    (mi me : ℕ) (h : (mi, me) ∈ collect_matches filtered pattern) :
    mi < filtered.length ∧ me ≤ filtered.length ∧
    match_pattern filtered mi pattern 0 = some me := by
  rw [collect_matches] at h
  obtain ⟨i, hi, hf⟩ := List.mem_filterMap.mp h
  obtain ⟨j, hm, hj⟩ := Option.map_eq_some'.mp hf
  cases hj
  have hilt : mi < filtered.length := List.mem_range.mp hi
  have hm2 : match_pattern filtered mi pattern 0 = some me := hm
  refine ⟨hilt, ?_, hm2⟩
  have hb := match_go_le filtered pattern mi me (by omega)
    (by rwa [match_pattern, List.drop_zero] at hm2)
  omega

lemma get?_eq_some_getD (l : List TimedToken) (k : ℕ) (h : k < l.length) :
    l.get? k = some (l.getD k default) := by
  rw [getD_eq_get l k h, ← List.get?_eq_get h]

/-- Claim C4: `find_phrase_timestamps` tries every start index in order,
returning the first collected match's bounds in forward mode and the last
match's bounds in backward mode, as (start of its first token, end of its
last token); it returns the `none` sentinel - it is a total function and
never an error - whenever the flattened token list is empty or no start
index yields a match. -/
theorem claim_C4 (t : Transcript) (phrase : String) (backwards : Bool) (skip : ℚ) :
    (flatten_words t = [] → find_phrase_timestamps t phrase backwards skip = none) ∧
    (collect_matches (apply_skip (flatten_words t) backwards skip)
        (parse_search_pattern phrase) = [] →
      find_phrase_timestamps t phrase backwards skip = none) ∧
    (∀ mi me : ℕ,
      (if backwards then
          (collect_matches (apply_skip (flatten_words t) backwards skip)
            (parse_search_pattern phrase)).getLast?
        else
          (collect_matches (apply_skip (flatten_words t) backwards skip)
            (parse_search_pattern phrase)).head?) = some (mi, me) →
      mi < me →
      find_phrase_timestamps t phrase backwards skip =
        some (((apply_skip (flatten_words t) backwards skip).getD mi default).start,
              ((apply_skip (flatten_words t) backwards skip).getD (me - 1) default).«end»)) := by
  refine ⟨?_, fpt_none_of_collect_nil t phrase backwards skip, ?_⟩
  · intro h
    rw [find_phrase_timestamps]
    simp [h]
  · intro mi me hsel hlt
    have hmem : (mi, me) ∈ collect_matches (apply_skip (flatten_words t) backwards skip)
        (parse_search_pattern phrase) := by
      rcases backwards
      · simp at hsel
        exact List.mem_of_mem_head? hsel
      · simp at hsel
        exact List.mem_of_mem_getLast? hsel
    obtain ⟨hmi, hme, hmp⟩ := mem_collect_matches _ _ mi me hmem
    have hlenlt : (apply_skip (flatten_words t) backwards skip).length ≤
        (flatten_words t).length := by
      rcases backwards <;>
        · rw [apply_skip]
          simp only [if_true, if_false, Bool.false_eq_true]
          exact List.length_filter_le _ _
    have hne : (flatten_words t).isEmpty = false := by
      rcases hL : flatten_words t
      · rw [hL] at hlenlt hmi
        rw [List.length_nil] at hlenlt
        exfalso
        omega
      · rfl
    have hp1 : py_index (apply_skip (flatten_words t) backwards skip) ((mi : ℕ) : ℤ) =
        some ((apply_skip (flatten_words t) backwards skip).getD mi default) := by
      rw [py_index_nat _ mi hmi, get?_eq_some_getD _ mi hmi]
    have hcast : ((me : ℤ) - 1) = (((me - 1 : ℕ)) : ℤ) := by omega
    have hp2 : py_index (apply_skip (flatten_words t) backwards skip) ((me : ℤ) - 1) =
        some ((apply_skip (flatten_words t) backwards skip).getD (me - 1) default) := by
      rw [hcast, py_index_nat _ (me - 1) (by omega), get?_eq_some_getD _ (me - 1) (by omega)]
    rw [find_phrase_timestamps]
    simp only [hne, Bool.false_eq_true, if_false]
    rw [hsel]
    simp only [hp1, hp2]

unseal Rat.sub in
/-- Witness for C4: backward mode returns the last match's bounds. -/
theorem claim_C4_witness :
    find_phrase_timestamps ⟨[⟨[⟨"Holy", 0, 1⟩, ⟨"Spirit", 1, 2⟩, ⟨"Amen", 2, 3⟩]⟩]⟩
      search_phrase true 0 = some (0, 3) := by
  have h := (claim_C4 ⟨[⟨[⟨"Holy", 0, 1⟩, ⟨"Spirit", 1, 2⟩, ⟨"Amen", 2, 3⟩]⟩]⟩
    search_phrase true 0).2.2 0 3 (by decide) (by decide)
  rw [h]
  decide


/-- C6 counterexample: with boundaries `first = 0`, `last = 2` the word
`late` spanning `[1, 5]` is retained by the extraction filter although its
end exceeds `last`: the source filters on `word.start` only. -/
theorem claim_C6_counterexample :
    ((find_homily_segments ⟨[⟨[⟨"late", 1, 5⟩]⟩]⟩ 0 2).map NewSegment.words).flatten =
      [⟨"late", 1, 5⟩] ∧ ¬ ((5 : ℚ) ≤ 2) := by
  decide

/-- Claim C6 (amended): the extractor retains a word if and only if
`first ≤ word.start ≤ last`; the word's end is not constrained. -/
theorem claim_C6 (t : Transcript) (first last : ℚ) :
    (∀ ns ∈ find_homily_segments t first last, ∀ w ∈ ns.words,
        first ≤ w.start ∧ w.start ≤ last) ∧
    (∀ seg ∈ t.segments, ∀ w ∈ seg.words, first ≤ w.start → w.start ≤ last →
        ∃ ns ∈ find_homily_segments t first last, w ∈ ns.words) := by
  constructor
  · intro ns hns w hw
    rw [find_homily_segments] at hns
    obtain ⟨seg, hseg, hf⟩ := List.mem_filterMap.mp hns
    rcases hfl : seg.words.filter (in_boundaries first last) with _ | ⟨w0, rest⟩
    · rw [hfl] at hf
      simp at hf
    · rw [hfl] at hf
      simp only [Option.some.injEq] at hf
      have hwords : ns.words = w0 :: rest := by rw [← hf]
      rw [hwords, ← hfl] at hw
      have := List.of_mem_filter hw
      rw [in_boundaries] at this
      simp only [Bool.and_eq_true, decide_eq_true_eq] at this
      exact this
  · intro seg hseg w hw h1 h2
    have hwf : w ∈ seg.words.filter (in_boundaries first last) := by
      rw [List.mem_filter]
      refine ⟨hw, ?_⟩
      rw [in_boundaries]
      simp only [Bool.and_eq_true, decide_eq_true_eq]
      exact ⟨h1, h2⟩
    rcases hfl : seg.words.filter (in_boundaries first last) with _ | ⟨w0, rest⟩
    · rw [hfl] at hwf
      simp at hwf
    · refine ⟨{ start := w0.start - first
                «end» := ((w0 :: rest).getLastD w0).«end» - first
                text := " ".intercalate ((w0 :: rest).map Word.word)
                words := w0 :: rest }, ?_, ?_⟩
      · rw [find_homily_segments]
        rw [List.mem_filterMap]
        exact ⟨seg, hseg, by rw [hfl]⟩
      · rw [← hfl] at *
        exact hwf

/-- Witness for C6 at a concrete retained word. -/
theorem claim_C6_witness :
    ∃ ns ∈ find_homily_segments ⟨[⟨[⟨"hi", 1, 2⟩]⟩]⟩ 0 3,
      (⟨"hi", 1, 2⟩ : Word) ∈ ns.words :=
  (claim_C6 ⟨[⟨[⟨"hi", 1, 2⟩]⟩]⟩ 0 3).2 ⟨[⟨"hi", 1, 2⟩]⟩ (by decide)
    ⟨"hi", 1, 2⟩ (by decide) (by decide) (by decide)

/-- Claim C7: every output homily segment is rebuilt from its retained
words: start and end are the first retained word's start and the last
retained word's end rebased by `first`, text is the space-joined retained
words; segments retaining nothing are dropped (the retained words across
the output are exactly the filtered words of all segments in order); the
overall homily text space-joins all retained words; and when nothing is in
range the result is empty text and no segments, not an error. -/
theorem claim_C7 (t : Transcript) (first last : ℚ) :
    (∀ ns ∈ find_homily_segments t first last,
       ns.words ≠ [] ∧
       ns.start = (ns.words.headD default).start - first ∧
       ns.«end» = (ns.words.getLastD default).«end» - first ∧
       ns.text = " ".intercalate (ns.words.map Word.word)) ∧
    ((find_homily_segments t first last).map NewSegment.words).flatten =
      (t.segments.map (fun seg => seg.words.filter (in_boundaries first last))).flatten ∧
    (find_homily_extract t first last).1 =
      " ".intercalate ((t.segments.map (fun seg =>
        (seg.words.filter (in_boundaries first last)).map Word.word)).flatten) ∧
    ((∀ seg ∈ t.segments, seg.words.filter (in_boundaries first last) = []) →
      find_homily_extract t first last = ("", [])) := by
  have hwordsflat : ((find_homily_segments t first last).map NewSegment.words).flatten =
      (t.segments.map (fun seg => seg.words.filter (in_boundaries first last))).flatten := by
    rw [find_homily_segments]
    induction t.segments with
    | nil => rfl
    | cons seg segs ih =>
      rw [List.filterMap_cons, List.map_cons]
      rcases hfl : seg.words.filter (in_boundaries first last) with _ | ⟨w0, rest⟩
      · simpa [hfl] using ih
      · simp only [List.map_cons, List.flatten_cons]
        rw [← ih]
        rfl
  refine ⟨?_, hwordsflat, ?_, ?_⟩
  · intro ns hns
    rw [find_homily_segments] at hns
    obtain ⟨seg, hseg, hf⟩ := List.mem_filterMap.mp hns
    rcases hfl : seg.words.filter (in_boundaries first last) with _ | ⟨w0, rest⟩
    · rw [hfl] at hf
      simp at hf
    · rw [hfl] at hf
      simp only [Option.some.injEq] at hf
      rw [← hf]
      refine ⟨by simp, by simp, ?_, by simp⟩
      simp only
      rw [List.getLastD_cons, List.getLastD_cons]
  · rw [find_homily_extract]
    simp only
    rw [show ((find_homily_segments t first last).map
        (fun s => s.words.map Word.word)).flatten =
        (((find_homily_segments t first last).map NewSegment.words).flatten).map Word.word
      from by rw [List.map_flatten, List.map_map]; rfl]
    rw [hwordsflat, List.map_flatten, List.map_map]
    rfl
  · intro hall
    have hnil : find_homily_segments t first last = [] := by
      rw [find_homily_segments, List.filterMap_eq_nil_iff]
      intro seg hseg
      rw [hall seg hseg]
    rw [find_homily_extract, hnil]
    rfl

/-- Witness for C7: no words in range yields the empty result. -/
theorem claim_C7_witness :
    find_homily_extract ⟨[⟨[⟨"far", 5, 6⟩]⟩]⟩ 1 3 = ("", []) :=
  (claim_C7 ⟨[⟨[⟨"far", 5, 6⟩]⟩]⟩ 1 3).2.2.2 (by decide)


lemma marker_pattern_eq : parse_search_pattern search_phrase =
    [MatchTok.word "holy" false, MatchTok.alternatives ["ghost", "spirit"] false,
     MatchTok.word "amen" false] := by decide

lemma marker_match_some (l : List TimedToken) (k j : ℕ)
    (h : match_pattern l k (parse_search_pattern search_phrase) 0 = some j) :
    j = k + 3 ∧ marker_occurs_at l k := by
  rw [match_pattern, List.drop_zero] at h
  obtain ⟨hj, hks⟩ := match_go_mandatory_some l (parse_search_pattern search_phrase)
    (by rw [marker_pattern_eq]; decide) k j h
  rw [marker_pattern_eq] at hj hks
  simp only [List.length_cons, List.length_nil] at hj hks
  have h0 := hks 0 (by omega)
  have h1 := hks 1 (by omega)
  have h2 := hks 2 (by omega)
  rw [marker_occurs_at]
  refine ⟨by omega, ⟨by omega, ?_, ?_, ?_⟩⟩
  · have h0b := h0.2
    simp [token_matches] at h0b
    simpa using h0b
  · have h1b := h1.2
    simp [token_matches] at h1b
    simpa using h1b
  · have h2b := h2.2
    simp [token_matches] at h2b
    simpa using h2b

lemma marker_match_of_occurs (l : List TimedToken) (k : ℕ)
    (h : marker_occurs_at l k) :
    match_pattern l k (parse_search_pattern search_phrase) 0 = some (k + 3) := by
  rw [marker_occurs_at] at h
  obtain ⟨hlen, h0, h1, h2⟩ := h
  simp only [List.getD_eq_getElem?_getD] at h0 h1 h2
  rw [match_pattern, List.drop_zero]
  have hc := match_go_mandatory_complete l (parse_search_pattern search_phrase)
    (by rw [marker_pattern_eq]; decide) k
    (by rw [marker_pattern_eq]; simp only [List.length_cons, List.length_nil]; omega) ?_
  · rw [hc, marker_pattern_eq]
    rfl
  · intro m hm
    rw [marker_pattern_eq] at hm ⊢
    simp only [List.length_cons, List.length_nil] at hm
    interval_cases m
    · simp [token_matches, h0]
    · rcases h1 with h | h <;> simp [token_matches, h]
    · simp [token_matches, h2]

lemma getD_drop {α : Type} [Inhabited α] (l : List α) (n p : ℕ) :
    (l.drop n).getD p default = l.getD (n + p) default := by
  simp [List.getD_eq_getElem?_getD, List.getElem?_drop]

lemma marker_occurs_drop (l : List TimedToken) (n p : ℕ) :
    marker_occurs_at (l.drop n) p ↔ marker_occurs_at l (n + p) := by
  rw [marker_occurs_at, marker_occurs_at]
  rw [getD_drop, getD_drop, getD_drop, List.length_drop]
  constructor
  · rintro ⟨hl, h0, h1, h2⟩
    refine ⟨by omega, h0, ?_, ?_⟩
    · rwa [show n + p + 1 = n + (p + 1) from by omega]
    · rwa [show n + p + 2 = n + (p + 2) from by omega]
  · rintro ⟨hl, h0, h1, h2⟩
    refine ⟨by omega, h0, ?_, ?_⟩
    · rwa [show n + (p + 1) = n + p + 1 from by omega]
    · rwa [show n + (p + 2) = n + p + 2 from by omega]

lemma filter_eq_drop {α : Type} (p : α → Bool) (l : List α) (n : ℕ)
    (h1 : ∀ w ∈ l.take n, p w = false) (h2 : ∀ w ∈ l.drop n, p w = true) :
    l.filter p = l.drop n := by
  conv_lhs => rw [← List.take_append_drop n l]
  rw [List.filter_append, List.filter_eq_nil_iff.mpr (by intro a ha; simp [h1 a ha]),
    List.filter_eq_self.mpr h2, List.nil_append]

lemma find?_eq_of_first {α : Type} [Inhabited α] (p : α → Bool) (l : List α) :
    ∀ (n : ℕ), n < l.length → p (l.getD n default) = true →
    (∀ j < n, p (l.getD j default) = false) →
    l.find? p = some (l.getD n default) := by
  induction l with
  | nil => intro n hn; simp at hn
  | cons a tl ih =>
    intro n hn hp hb
    match n with
    | 0 =>
      rw [List.getD_cons_zero] at hp
      rw [List.find?_cons_of_pos _ hp, List.getD_cons_zero]
    | Nat.succ m =>
      have ha : p a = false := by
        have := hb 0 (by omega)
        rwa [List.getD_cons_zero] at this
      rw [List.find?_cons_of_neg _ (by simp [ha]), List.getD_cons_succ]
      exact ih m (by simpa using hn) (by rwa [List.getD_cons_succ] at hp)
        (fun j hj => by
          have := hb (j + 1) (by omega)
          rwa [List.getD_cons_succ] at this)

lemma head?_filterMap_range {β : Type} :
    ∀ (q : ℕ) (f : ℕ → Option β) (len : ℕ) (b : β), q < len → f q = some b →
    (∀ j < q, f j = none) →
    ((List.range len).filterMap f).head? = some b := by
  intro q
  induction q with
  | zero =>
    intro f len b hq hf _
    match len, hq with
    | Nat.succ m, _ =>
      rw [List.range_succ_eq_map, List.filterMap_cons, hf]
      rfl
  | succ q ih =>
    intro f len b hq hf hb
    match len, hq with
    | Nat.succ m, hq =>
      rw [List.range_succ_eq_map, List.filterMap_cons, hb 0 (by omega),
        List.filterMap_map]
      exact ih (fun j => f (j + 1)) m b (by omega) (by simpa using hf)
        (fun j hj => hb (j + 1) (by omega))

lemma filterMap_range_nil {β : Type} (f : ℕ → Option β) (len : ℕ)
    (h : ∀ j < len, f j = none) : (List.range len).filterMap f = [] := by
  rw [List.filterMap_eq_nil_iff]
  intro a ha
  exact h a (List.mem_range.mp ha)

lemma end_lt_start_of_lt (W : List TimedToken)
    (hdur : ∀ j < W.length, (W.getD j default).start < (W.getD j default).«end»)
    (hgap : ∀ j, j + 1 < W.length →
      (W.getD j default).«end» < (W.getD (j + 1) default).start) :
    ∀ i j, i < j → j < W.length →
      (W.getD i default).«end» < (W.getD j default).start := by
  intro i j
  induction j with
  | zero => omega
  | succ m ih =>
    intro hij hj
    rcases Nat.lt_succ_iff_lt_or_eq.mp hij with h | h
    · calc (W.getD i default).«end» < (W.getD m default).start := ih h (by omega)
      _ < (W.getD m default).«end» := hdur m (by omega)
      _ < (W.getD (m + 1) default).start := hgap m hj
    · subst h
      exact hgap i hj

lemma filter_start_ge_drop (W : List TimedToken)
    (hdur : ∀ j < W.length, (W.getD j default).start < (W.getD j default).«end»)
    (hgap : ∀ j, j + 1 < W.length →
      (W.getD j default).«end» < (W.getD (j + 1) default).start)
    (k : ℕ) (hk : k + 3 ≤ W.length) :
    W.filter (fun w => decide ((W.getD (k + 2) default).«end» ≤ w.start)) =
      W.drop (k + 3) := by
  apply filter_eq_drop
  · intro w hw
    rw [List.mem_take_iff_getElem] at hw
    obtain ⟨j, hj, hjw⟩ := hw
    have hjlen : j < W.length := by omega
    have hjk : j ≤ k + 2 := by omega
    have hwj : w = W.getD j default := by
      rw [← hjw, getD_eq_get W j hjlen]
      simp
    subst hwj
    simp only [decide_eq_false_iff_not, not_le]
    rcases Nat.lt_or_ge j (k + 2) with h | h
    · calc (W.getD j default).start < (W.getD j default).«end» := hdur j hjlen
      _ < (W.getD (k + 2) default).start := end_lt_start_of_lt W hdur hgap j (k + 2) h (by omega)
      _ < (W.getD (k + 2) default).«end» := hdur (k + 2) (by omega)
    · have hje : j = k + 2 := by omega
      subst hje
      exact hdur (k + 2) hjlen
  · intro w hw
    rw [List.mem_drop_iff_getElem] at hw
    obtain ⟨j, hj, hjw⟩ := hw
    have hjlen : k + 3 + j < W.length := by omega
    have hwj : w = W.getD (k + 3 + j) default := by
      rw [← hjw, getD_eq_get W (k + 3 + j) hjlen]
      simp
    subst hwj
    simp only [decide_eq_true_eq]
    exact le_of_lt (end_lt_start_of_lt W hdur hgap (k + 2) (k + 3 + j) (by omega) hjlen)

lemma flatten_eq_map (t : Transcript) :
    flatten_words t = (all_words t).map
      (fun w => ⟨py_strip (normalize_text w.word), w.start, w.«end»⟩) := by
  rw [flatten_words, all_words, List.map_flatten, List.map_map]
  rfl

lemma flatten_length (t : Transcript) :
    (flatten_words t).length = (all_words t).length := by
  rw [flatten_eq_map, List.length_map]

lemma start_transfer (t : Transcript) (j : ℕ) :
    ((all_words t).getD j default).start = ((flatten_words t).getD j default).start := by
  rw [flatten_eq_map]
  simp only [List.getD_eq_getElem?_getD, List.getElem?_map]
  rcases (all_words t)[j]? with _ | w <;> rfl

lemma end_transfer (t : Transcript) (j : ℕ) :
    ((all_words t).getD j default).«end» = ((flatten_words t).getD j default).«end» := by
  rw [flatten_eq_map]
  simp only [List.getD_eq_getElem?_getD, List.getElem?_map]
  rcases (all_words t)[j]? with _ | w <;> rfl

lemma find_next_word_at (t : Transcript) (x : ℚ) (n : ℕ)
    (hn : n < (all_words t).length)
    (hgt : x < ((all_words t).getD n default).start)
    (hbefore : ∀ j < n, ¬ (x < ((all_words t).getD j default).start)) :
    find_next_word t x =
      some (((all_words t).getD n default).start,
            ((all_words t).getD n default).«end») := by
  rw [find_next_word]
  rw [find?_eq_of_first _ _ n hn (by simp only [decide_eq_true_eq]; exact hgt)
    (fun j hj => by
      simp only [decide_eq_false_iff_not, not_lt]
      exact not_lt.mp (hbefore j hj))]
  rfl

lemma getD_reverse {α : Type} [Inhabited α] (l : List α) (i : ℕ) (h : i < l.length) :
    (l.reverse).getD i default = l.getD (l.length - 1 - i) default := by
  simp only [List.getD_eq_getElem?_getD]
  rw [List.getElem?_reverse h]

lemma find_prev_word_at (t : Transcript) (x : ℚ) (n : ℕ)
    (hn : n < (all_words t).length)
    (hlt : ((all_words t).getD n default).«end» < x)
    (hafter : ∀ j, n < j → j < (all_words t).length →
      ¬ (((all_words t).getD j default).«end» < x)) :
    find_prev_word t x =
      some (((all_words t).getD n default).start,
            ((all_words t).getD n default).«end») := by
  rw [find_prev_word]
  have hlen : (all_words t).reverse.length = (all_words t).length := by
    rw [List.length_reverse]
  have hr : (all_words t).length - 1 - n < (all_words t).length := by omega
  have hrev : ((all_words t).reverse.getD ((all_words t).length - 1 - n) default) =
      (all_words t).getD n default := by
    rw [getD_reverse _ _ (by omega)]
    congr 1
    omega
  rw [find?_eq_of_first _ _ ((all_words t).length - 1 - n) (by omega)
    (by rw [hrev]; simp only [decide_eq_true_eq]; exact hlt)
    (fun j hj => by
      rw [getD_reverse _ _ (by omega)]
      have hidx : n < (all_words t).length - 1 - j := by omega
      simp only [decide_eq_false_iff_not, not_lt]
      exact not_lt.mp (hafter ((all_words t).length - 1 - j) hidx (by omega)))]
  rw [hrev]
  rfl

lemma fpt_step_none (t : Transcript) (e : ℚ) (n : ℕ)
    (hfilter : apply_skip (flatten_words t) false e = (flatten_words t).drop n)
    (hno : ∀ j, n ≤ j → ¬ marker_occurs_at (flatten_words t) j) :
    find_phrase_timestamps t search_phrase false e = none := by
  apply fpt_none_of_collect_nil
  rw [hfilter, collect_matches]
  apply filterMap_range_nil
  intro p hp
  rcases hm : match_pattern ((flatten_words t).drop n) p
      (parse_search_pattern search_phrase) 0 with _ | j
  · rfl
  · exfalso
    obtain ⟨hj, hoc⟩ := marker_match_some _ p j hm
    exact hno (n + p) (by omega) ((marker_occurs_drop _ n p).mp hoc)

lemma fpt_step_found (t : Transcript) (e : ℚ) (n p : ℕ)
    (hfilter : apply_skip (flatten_words t) false e = (flatten_words t).drop n)
    (hocc : marker_occurs_at (flatten_words t) (n + p))
    (hleast : ∀ q < p, ¬ marker_occurs_at (flatten_words t) (n + q)) :
    find_phrase_timestamps t search_phrase false e =
      some (((flatten_words t).getD (n + p) default).start,
            ((flatten_words t).getD (n + p + 2) default).«end») := by
  have hlen : n + p + 3 ≤ (flatten_words t).length := hocc.1
  have hne : (flatten_words t).isEmpty = false := by
    rcases hL : flatten_words t with _ | ⟨w, ws⟩
    · rw [hL] at hlen
      simp at hlen
    · rfl
  have hoccd : marker_occurs_at ((flatten_words t).drop n) p :=
    (marker_occurs_drop _ n p).mpr hocc
  have hmd : match_pattern ((flatten_words t).drop n) p
      (parse_search_pattern search_phrase) 0 = some (p + 3) :=
    marker_match_of_occurs _ p hoccd
  have hplen : p + 3 ≤ ((flatten_words t).drop n).length := hoccd.1
  have hhead : (collect_matches ((flatten_words t).drop n)
      (parse_search_pattern search_phrase)).head? = some (p, p + 3) := by
    rw [collect_matches]
    apply head?_filterMap_range p _ _ _ (by omega)
    · rw [hmd]
      rfl
    · intro q hq
      rcases hm : match_pattern ((flatten_words t).drop n) q
          (parse_search_pattern search_phrase) 0 with _ | j
      · rfl
      · exfalso
        obtain ⟨hj, hoc⟩ := marker_match_some _ q j hm
        exact hleast q hq ((marker_occurs_drop _ n q).mp hoc)
  have hp1 : py_index ((flatten_words t).drop n) ((p : ℕ) : ℤ) =
      some (((flatten_words t).drop n).getD p default) := by
    rw [py_index_nat _ p (by omega), get?_eq_some_getD _ p (by omega)]
  have hcast : (((p + 3 : ℕ)) : ℤ) - 1 = (((p + 2 : ℕ)) : ℤ) := by omega
  have hp2 : py_index ((flatten_words t).drop n) ((((p + 3 : ℕ)) : ℤ) - 1) =
      some (((flatten_words t).drop n).getD (p + 2) default) := by
    rw [hcast, py_index_nat _ (p + 2) (by omega), get?_eq_some_getD _ (p + 2) (by omega)]
  rw [find_phrase_timestamps]
  simp only [hne, Bool.false_eq_true, if_false, hfilter]
  rw [hhead]
  simp only [hp1, hp2]
  rw [getD_drop, getD_drop]
  rw [show n + (p + 2) = n + p + 2 from by omega]

lemma apply_skip_false (l : List TimedToken) (s : ℚ) :
    apply_skip l false s = l.filter (fun w => decide (s ≤ w.start)) := rfl

lemma occ_gap (W : List TimedToken) (k k' : ℕ)
    (hk : marker_occurs_at W k) (hk' : marker_occurs_at W k') (hlt : k < k') :
    k + 3 ≤ k' := by
  by_contra h
  have : k' = k + 1 ∨ k' = k + 2 := by omega
  rcases this with h1 | h2
  · have ha := hk'.2.1
    rw [h1] at ha
    rcases hk.2.2.1 with hg | hg <;> rw [ha] at hg <;> simp at hg
  · have ha := hk'.2.1
    rw [h2] at ha
    have := hk.2.2.2
    rw [ha] at this
    simp at this

lemma loop_spec (t : Transcript) (kmax : ℕ)
    (hdur : ∀ j < (flatten_words t).length,
      ((flatten_words t).getD j default).start < ((flatten_words t).getD j default).«end»)
    (hgap : ∀ j, j + 1 < (flatten_words t).length →
      ((flatten_words t).getD j default).«end» <
        ((flatten_words t).getD (j + 1) default).start)
    (hoccmax : marker_occurs_at (flatten_words t) kmax)
    (hmax : ∀ j, marker_occurs_at (flatten_words t) j → j ≤ kmax) :
    ∀ (fuel k : ℕ) (last : ℚ), marker_occurs_at (flatten_words t) k →
      (flatten_words t).length ≤ k + fuel →
      find_homily_loop t fuel (((flatten_words t).getD (k + 2) default).«end») last =
        some (if k = kmax then last
              else ((flatten_words t).getD (kmax - 1) default).«end») := by
  intro fuel
  induction fuel with
  | zero =>
    intro k last hk hlen
    exfalso
    have := hk.1
    omega
  | succ fuel ih =>
    intro k last hk hlen
    have hskip : apply_skip (flatten_words t) false
        (((flatten_words t).getD (k + 2) default).«end») = (flatten_words t).drop (k + 3) := by
      rw [apply_skip_false]
      exact filter_start_ge_drop (flatten_words t) hdur hgap k hk.1
    by_cases hex : ∃ j, (k + 3 ≤ j ∧ marker_occurs_at (flatten_words t) j)
    · have hkltmax : k < kmax := by
        obtain ⟨j, hj1, hj2⟩ := hex
        have := hmax j hj2
        omega
      have hkp3 : k + 3 ≤ Nat.find hex := (Nat.find_spec hex).1
      have hkpocc : marker_occurs_at (flatten_words t) (Nat.find hex) := (Nat.find_spec hex).2
      have hkpmin : ∀ m, m < Nat.find hex →
          ¬ (k + 3 ≤ m ∧ marker_occurs_at (flatten_words t) m) := by
        intro m hm
        exact Nat.find_min hex hm
      generalize hkpdef : Nat.find hex = kp at hkp3 hkpocc hkpmin
      have hkpmax : kp ≤ kmax := hmax kp hkpocc
      have hkplen : kp + 3 ≤ (flatten_words t).length := hkpocc.1
      have hAlen : (all_words t).length = (flatten_words t).length := (flatten_length t).symm
      have hfound := fpt_step_found t (((flatten_words t).getD (k + 2) default).«end»)
        (k + 3) (kp - (k + 3)) hskip
        (by rw [show k + 3 + (kp - (k + 3)) = kp from by omega]; exact hkpocc)
        (fun q hq => by
          intro hoc
          exact (hkpmin (k + 3 + q) (by omega)) ⟨by omega, hoc⟩)
      rw [show k + 3 + (kp - (k + 3)) = kp from by omega] at hfound
      have hprev := find_prev_word_at t (((flatten_words t).getD kp default).start) (kp - 1)
        (by omega)
        (by
          rw [end_transfer]
          exact end_lt_start_of_lt (flatten_words t) hdur hgap (kp - 1) kp (by omega) (by omega))
        (fun j hj1 hj2 => by
          rw [end_transfer]
          have hjkp : kp ≤ j := by omega
          have hjlen : j < (flatten_words t).length := by omega
          rcases Nat.eq_or_lt_of_le hjkp with h | h
          · rw [← h]
            have := hdur kp (by omega)
            linarith
          · have hs : ((flatten_words t).getD kp default).start <
                ((flatten_words t).getD j default).start := by
              calc ((flatten_words t).getD kp default).start
                  < ((flatten_words t).getD kp default).«end» := hdur kp (by omega)
                _ < ((flatten_words t).getD j default).start :=
                  end_lt_start_of_lt (flatten_words t) hdur hgap kp j h hjlen
            have := hdur j hjlen
            linarith)
      simp only [find_homily_loop]
      rw [hfound]
      simp only [hprev]
      have hih := ih kp (((all_words t).getD (kp - 1) default).«end») hkpocc (by omega)
      rw [hih]
      have hkne : ¬ (k = kmax) := by omega
      rw [if_neg hkne]
      by_cases hkpm : kp = kmax
      · rw [if_pos hkpm, hkpm, end_transfer]
      · rw [if_neg hkpm]
    · have hno : ∀ j, k + 3 ≤ j → ¬ marker_occurs_at (flatten_words t) j := by
        intro j hj hoc
        exact hex ⟨j, hj, hoc⟩
      have hkmax : k = kmax := by
        have hkle := hmax k hk
        rcases Nat.eq_or_lt_of_le hkle with h | h
        · exact h
        · exfalso
          exact hno kmax (occ_gap _ k kmax hk hoccmax h) hoccmax
      have hnone := fpt_step_none t (((flatten_words t).getD (k + 2) default).«end»)
        (k + 3) hskip hno
      simp only [find_homily_loop]
      rw [hnone, hkmax]
      simp

/-- Claim C5 (amended): on a chronologically ordered transcript
(positive-duration words separated by strict gaps, nonnegative starts) in
which the marker phrase occurs, with `k0` the first and `kmax` the last
occurrence position and at least one word after the first occurrence,
`find_homily` resolves `first` as the start of the first word strictly
after the first occurrence's end; `last` is the end of the word just
before the last occurrence when the marker occurs more than once, and
stays the end of the first word after the (single) occurrence otherwise. -/
theorem claim_C5 (t : Transcript) (k0 kmax : ℕ)
    (hdur : ∀ j < (flatten_words t).length,
      ((flatten_words t).getD j default).start < ((flatten_words t).getD j default).«end»)
    (hgapb : ∀ j < (flatten_words t).length, j + 1 < (flatten_words t).length →
      ((flatten_words t).getD j default).«end» <
        ((flatten_words t).getD (j + 1) default).start)
    (hpos : ∀ j < (flatten_words t).length, 0 ≤ ((flatten_words t).getD j default).start)
    (hocc0 : marker_occurs_at (flatten_words t) k0)
    (hleast : ∀ j < k0, ¬ marker_occurs_at (flatten_words t) j)
    (hoccmax : marker_occurs_at (flatten_words t) kmax)
    (hmaxb : ∀ j < (flatten_words t).length, marker_occurs_at (flatten_words t) j → j ≤ kmax)
    (hafter : k0 + 3 < (flatten_words t).length) :
    ∃ text segs, find_homily t =
      some (((flatten_words t).getD (k0 + 3) default).start,
            (if kmax = k0 then ((flatten_words t).getD (k0 + 3) default).«end»
             else ((flatten_words t).getD (kmax - 1) default).«end»),
            text, segs) := by
  have hgap : ∀ j, j + 1 < (flatten_words t).length →
      ((flatten_words t).getD j default).«end» <
        ((flatten_words t).getD (j + 1) default).start := by
    intro j hj
    exact hgapb j (by omega) hj
  have hmax : ∀ j, marker_occurs_at (flatten_words t) j → j ≤ kmax := by
    intro j hj
    exact hmaxb j (by have := hj.1; omega) hj
  have hAlen : (all_words t).length = (flatten_words t).length := (flatten_length t).symm
  have hskip0 : apply_skip (flatten_words t) false 0 = (flatten_words t).drop 0 := by
    rw [apply_skip_false, List.drop_zero, List.filter_eq_self]
    intro w hw
    rw [List.mem_iff_getElem] at hw
    obtain ⟨j, hj, hjw⟩ := hw
    have hwj : w = (flatten_words t).getD j default := by
      rw [← hjw, getD_eq_get _ j hj]
      simp
    subst hwj
    simp only [decide_eq_true_eq]
    exact hpos j hj
  have hfound0 := fpt_step_found t 0 0 k0 hskip0
    (by rw [Nat.zero_add]; exact hocc0)
    (fun q hq => by rw [Nat.zero_add]; exact hleast q hq)
  have hnext := find_next_word_at t (((flatten_words t).getD (k0 + 2) default).«end»)
    (k0 + 3) (by omega)
    (by
      rw [start_transfer]
      exact hgap (k0 + 2) (by omega))
    (fun j hj => by
      rw [start_transfer]
      have hjlen : j < (flatten_words t).length := by omega
      simp only [not_lt]
      rcases Nat.lt_or_ge j (k0 + 2) with h | h
      · have h1 := hdur j hjlen
        have h2 := end_lt_start_of_lt (flatten_words t) hdur hgap j (k0 + 2) h (by omega)
        have h3 := hdur (k0 + 2) (by omega)
        linarith
      · have hje : j = k0 + 2 := by omega
        rw [hje]
        exact le_of_lt (hdur (k0 + 2) (by omega)))
  have hloop := loop_spec t kmax hdur hgap hoccmax hmax
    ((flatten_words t).length + 1) k0 (((all_words t).getD (k0 + 3) default).«end»)
    hocc0 (by omega)
  rw [find_homily]
  rw [hfound0]
  simp only [Nat.zero_add]
  simp only [hnext]
  simp only [hloop]
  rw [start_transfer]
  by_cases hkk : k0 = kmax
  · rw [if_pos hkk, if_pos (show kmax = k0 from hkk.symm), end_transfer]
    exact ⟨_, _, rfl⟩
  · rw [if_neg hkk, if_neg (show ¬ kmax = k0 from fun h => hkk h.symm)]
    exact ⟨_, _, rfl⟩

unseal Rat.sub in
/-- C5 counterexample: with a single marker occurrence (at token index 1,
preceded by a word ending at 1), `find_homily` resolves `last = 9`, the end
of the word after the marker, not the end of the word just before the
marker occurrence (which ends at 1). -/
theorem claim_C5_counterexample :
    find_homily single_marker_transcript = some (8, 9, "alpha", [(0, 1, "alpha")]) ∧
    ¬ ((9 : ℚ) = 1) := by
  constructor
  · decide
  · decide

/-- Witness for C5 on a transcript with two marker occurrences. -/
theorem claim_C5_witness :
    ∃ text segs, find_homily double_marker_transcript = some (8, 9, text, segs) := by
  have h := claim_C5 double_marker_transcript 1 5 (by decide) (by decide) (by decide)
    (by decide) (by decide) (by decide) (by decide) (by decide)
  obtain ⟨text, segs, h⟩ := h
  have hx : ((flatten_words double_marker_transcript).getD (1 + 3) default).start = 8 := by
    decide
  have hif : (if (5 : ℕ) = 1 then
        ((flatten_words double_marker_transcript).getD (1 + 3) default).«end»
      else ((flatten_words double_marker_transcript).getD (5 - 1) default).«end») = 9 := by
    decide
  rw [hx, hif] at h
  exact ⟨text, segs, h⟩


end TextFind






